import Mathlib

/-!
Verification of the contract valuation routine of `GasValuator`
(`PrototypePricingModel.py`): the event-pass accounting function
`price_contract`, its date-sorted event merge, and `months_between`.

Modelling choices:
* Calendar dates are day numbers (`Int`): the source stores ISO
  `YYYY-MM-DD` strings, whose lexicographic order coincides with
  chronological order, and `months_between` only uses the day difference.
* Prices, volumes and fees are exact rationals (`ℚ`), the idealised
  arithmetic of the accounting algorithm.
* The Prophet forecaster is opaque: an arbitrary function `Date → ℚ`
  standing for `get_price_estimate(model, date)`.
* The two `raise ValueError` sites become the two constructors of
  `PricingError`, carrying the same figures the messages interpolate.
* Python `sorted` / `list.sort` are stable; `List.insertionSort` is the
  stable sort used to embed them.
-/

namespace GasValuator

/-- A calendar date, modelled as a day number. -/
abbrev Date := Int

/-- One entry of `injection_events` / `withdrawal_events`: a dict
`{'date': ..., 'volume': ...}`. -/
structure RawEvent where
  date : Date
  volume : ℚ
deriving DecidableEq

/-- The `'type'` tag attached during the merge. -/
inductive EventType
  | injection
  | withdrawal
deriving DecidableEq

/-- A merged event `{'date': ..., 'volume': ..., 'type': ...}`. -/
structure Event where
  date : Date
  volume : ℚ
  etype : EventType
deriving DecidableEq

/-- `months_between(date_str1, date_str2)`: day difference divided by the
average month length `365.25 / 12`. -/
def months_between (d1 d2 : Date) : ℚ :=
  ((d2 - d1 : Int) : ℚ) / ((365.25 : ℚ) / 12)

/-- The fee and capacity parameters of `price_contract`. -/
structure Params where
  storage_monthly_fee : ℚ
  injection_fee : ℚ
  withdrawal_fee : ℚ
  max_storage : ℚ
deriving DecidableEq

/-- The two `ValueError`s raised by `price_contract`, with the figures the
messages report. -/
inductive PricingError
  | capacityExceeded (volume max_storage : ℚ)
  | insufficientInventory (volume inventory : ℚ)
deriving DecidableEq

/-- Step 1 of each loop iteration: storage cost from `prev_date` to the
current date, charged only when `prev_date` is set. -/
def chargeStorage (p : Params) (inventory net_value : ℚ)
    (prev_date : Option Date) (current_date : Date) : ℚ :=
  match prev_date with
  | none => net_value
  | some pd => net_value - inventory * p.storage_monthly_fee * months_between pd current_date

/-- The event loop of `price_contract`: state is
`(inventory, net_value, prev_date)`, initialised to `(0, 0, none)`. -/
def processEvents (model : Date → ℚ) (p : Params) :
    List Event → ℚ → ℚ → Option Date → Except PricingError ℚ
  | [], _, net_value, _ => Except.ok net_value
  | e :: rest, inventory, net_value, prev_date =>
    let net_value1 := chargeStorage p inventory net_value prev_date e.date
    match e.etype with
    | EventType.injection =>
      if inventory + e.volume > p.max_storage then
        Except.error (PricingError.capacityExceeded e.volume p.max_storage)
      else
        processEvents model p rest (inventory + e.volume)
          (net_value1 - model e.date * e.volume - p.injection_fee * e.volume) (some e.date)
    | EventType.withdrawal =>
      if inventory < e.volume then
        Except.error (PricingError.insufficientInventory e.volume inventory)
      else
        processEvents model p rest (inventory - e.volume)
          (net_value1 + model e.date * e.volume - p.withdrawal_fee * e.volume) (some e.date)

/-- Comparison "by date" used for every sort in the merge. -/
def keyLe {α : Type} (key : α → Int) (a b : α) : Prop := key a ≤ key b

instance {α : Type} (key : α → Int) : DecidableRel (keyLe key) :=
  fun a b => inferInstanceAs (Decidable (key a ≤ key b))

instance {α : Type} (key : α → Int) : IsTotal α (keyLe key) :=
  ⟨fun a b => Int.le_total (key a) (key b)⟩

instance {α : Type} (key : α → Int) : IsTrans α (keyLe key) :=
  ⟨fun _ _ _ h1 h2 => le_trans h1 h2⟩

/-- Tagging of an injection entry during the merge. -/
def tagInjection (e : RawEvent) : Event := ⟨e.date, e.volume, EventType.injection⟩

/-- Tagging of a withdrawal entry during the merge. -/
def tagWithdrawal (e : RawEvent) : Event := ⟨e.date, e.volume, EventType.withdrawal⟩

/-- The merge step of `price_contract`: each input list sorted by date,
injections appended first, withdrawals second, then one more stable sort of
the concatenation by date. -/
def allEvents (injection_events withdrawal_events : List RawEvent) : List Event :=
  List.insertionSort (keyLe Event.date)
    ((List.insertionSort (keyLe RawEvent.date) injection_events).map tagInjection
      ++ (List.insertionSort (keyLe RawEvent.date) withdrawal_events).map tagWithdrawal)

/-- `price_contract`: merge the events, then run the accounting pass from
inventory 0, net value 0 and no previous date. -/
def price_contract (injection_events withdrawal_events : List RawEvent)
    (model : Date → ℚ) (p : Params) : Except PricingError ℚ :=
  processEvents model p (allEvents injection_events withdrawal_events) 0 0 none

/-- The inventory update an event applies once its check has passed. -/
def nextInventory (inventory : ℚ) (e : Event) : ℚ :=
  match e.etype with
  | EventType.injection => inventory + e.volume
  | EventType.withdrawal => inventory - e.volume

/-- Every inventory level the pass visits: the level held before each
event, and the final level. -/
def inventoryLevels : List Event → ℚ → List ℚ
  | [], inventory => [inventory]
  | e :: rest, inventory => inventory :: inventoryLevels rest (nextInventory inventory e)

/-- The signed cash flow an event contributes at the oracle price: a buy
for an injection, a sale for a withdrawal. -/
def eventCashFlow (model : Date → ℚ) (e : Event) : ℚ :=
  match e.etype with
  | EventType.injection => -(model e.date * e.volume)
  | EventType.withdrawal => model e.date * e.volume

/-- `processEvents` instrumented with the list of dates passed to the
oracle, in query order. -/
def processEventsTraced (model : Date → ℚ) (p : Params) :
    List Event → ℚ → ℚ → Option Date → Except PricingError ℚ × List Date
  | [], _, net_value, _ => (Except.ok net_value, [])
  | e :: rest, inventory, net_value, prev_date =>
    let net_value1 := chargeStorage p inventory net_value prev_date e.date
    match e.etype with
    | EventType.injection =>
      if inventory + e.volume > p.max_storage then
        (Except.error (PricingError.capacityExceeded e.volume p.max_storage), [])
      else
        let r := processEventsTraced model p rest (inventory + e.volume)
          (net_value1 - model e.date * e.volume - p.injection_fee * e.volume) (some e.date)
        (r.1, e.date :: r.2)
    | EventType.withdrawal =>
      if inventory < e.volume then
        (Except.error (PricingError.insufficientInventory e.volume inventory), [])
      else
        let r := processEventsTraced model p rest (inventory - e.volume)
          (net_value1 + model e.date * e.volume - p.withdrawal_fee * e.volume) (some e.date)
        (r.1, e.date :: r.2)

/-- The merged event list is a permutation of the tagged input lists. -/
theorem allEvents_perm (injection_events withdrawal_events : List RawEvent) :
    List.Perm (allEvents injection_events withdrawal_events)
      (injection_events.map tagInjection ++ withdrawal_events.map tagWithdrawal) := by
  refine (List.perm_insertionSort _ _).trans ?_
  exact List.Perm.append ((List.perm_insertionSort _ _).map tagInjection)
    ((List.perm_insertionSort _ _).map tagWithdrawal)

/-- Every merged event is a tagged copy of an input entry. -/
theorem mem_allEvents {injection_events withdrawal_events : List RawEvent} {e : Event}
    (hm : e ∈ allEvents injection_events withdrawal_events) :
    (∃ r ∈ injection_events, e = tagInjection r)
      ∨ (∃ r ∈ withdrawal_events, e = tagWithdrawal r) := by
  have h := (allEvents_perm injection_events withdrawal_events).mem_iff.mp hm
  simp only [List.mem_append, List.mem_map] at h
  rcases h with ⟨r, hr, he⟩ | ⟨r, hr, he⟩
  · exact Or.inl ⟨r, hr, he.symm⟩
  · exact Or.inr ⟨r, hr, he.symm⟩

/-- If the pass returns `ok` from an in-bounds starting inventory and all
event volumes are non-negative, every visited inventory level is within
`[0, max_storage]`. -/
theorem processEvents_ok_levels_bounded (model : Date → ℚ) (p : Params) :
    ∀ (events : List Event) (inventory net_value : ℚ) (prev_date : Option Date) (v : ℚ),
      (∀ e ∈ events, 0 ≤ e.volume) → 0 ≤ inventory → inventory ≤ p.max_storage →
      processEvents model p events inventory net_value prev_date = Except.ok v →
      ∀ x ∈ inventoryLevels events inventory, 0 ≤ x ∧ x ≤ p.max_storage := by
  intro events
  induction events with
  | nil =>
    intro inventory net_value prev_date v _ h0 h1 _ x hx
    simp only [inventoryLevels, List.mem_singleton] at hx
    subst hx
    exact ⟨h0, h1⟩
  | cons e rest ih =>
    intro inventory net_value prev_date v hvol h0 h1 hok x hx
    obtain ⟨d, vol, t⟩ := e
    have hv : (0 : ℚ) ≤ vol := hvol _ (List.mem_cons_self _ _)
    have hvrest : ∀ e2 ∈ rest, 0 ≤ e2.volume :=
      fun e2 he2 => hvol e2 (List.mem_cons_of_mem _ he2)
    cases t
    case injection =>
      by_cases hc : inventory + vol > p.max_storage
      · simp [processEvents, hc] at hok
      · have hle : inventory + vol ≤ p.max_storage := not_lt.mp hc
        have hok2 := hok
        simp only [processEvents, if_neg hc] at hok2
        simp only [inventoryLevels, nextInventory, List.mem_cons] at hx
        rcases hx with rfl | hx
        · exact ⟨h0, h1⟩
        · exact ih (inventory + vol) _ (some d) v hvrest (add_nonneg h0 hv) hle hok2 x hx
    case withdrawal =>
      by_cases hc : inventory < vol
      · simp [processEvents, hc] at hok
      · have hge : vol ≤ inventory := not_lt.mp hc
        have hok2 := hok
        simp only [processEvents, if_neg hc] at hok2
        simp only [inventoryLevels, nextInventory, List.mem_cons] at hx
        rcases hx with rfl | hx
        · exact ⟨h0, h1⟩
        · exact ih (inventory - vol) _ (some d) v hvrest (sub_nonneg.mpr hge)
            (le_trans (sub_le_self inventory hv) h1) hok2 x hx

/-- Claim C2: on every run of `price_contract` that returns normally, with
inputs satisfying the data model (positive event volumes, positive
capacity), every inventory level of the event pass — before each event and
at the end — lies in `[0, max_storage]`; the per-event checks reject any
state that would leave this range rather than clamping it. -/
theorem inventory_invariant
    (injection_events withdrawal_events : List RawEvent)
    (model : Date → ℚ) (p : Params) (v : ℚ)
    (hvol : ∀ r ∈ injection_events ++ withdrawal_events, 0 < r.volume)
    (hmax : 0 < p.max_storage)
    (hok : price_contract injection_events withdrawal_events model p = Except.ok v) :
    ∀ x ∈ inventoryLevels (allEvents injection_events withdrawal_events) 0,
      0 ≤ x ∧ x ≤ p.max_storage := by
  refine processEvents_ok_levels_bounded model p _ 0 0 none v ?_ le_rfl hmax.le hok
  intro e he
  rcases mem_allEvents he with ⟨r, hr, rfl⟩ | ⟨r, hr, rfl⟩
  · exact (hvol r (List.mem_append_left _ hr)).le
  · exact (hvol r (List.mem_append_right _ hr)).le

/-- Witness for C2: a 3-unit injection then a 3-unit withdrawal under
capacity 10 succeeds, and the peak inventory level 3 it visits is in
bounds. -/
theorem inventory_invariant_witness :
    (0 : ℚ) ≤ 3 ∧ (3 : ℚ) ≤ Params.max_storage ⟨0, 0, 0, 10⟩ :=
  inventory_invariant [⟨0, 3⟩] [⟨1, 3⟩] (fun _ => 1) ⟨0, 0, 0, 10⟩ 0
    (by
      intro r hr
      simp only [List.mem_append, List.mem_cons, List.not_mem_nil, or_false] at hr
      rcases hr with rfl | rfl <;> norm_num)
    (by norm_num)
    (by
      norm_num [price_contract, allEvents, processEvents, chargeStorage, keyLe, tagInjection,
        tagWithdrawal, months_between, List.insertionSort, List.orderedInsert])
    3
    (by
      norm_num [inventoryLevels, nextInventory, allEvents, keyLe, tagInjection,
        tagWithdrawal, List.insertionSort, List.orderedInsert])

/-- Claim C1: between two consecutive events, before the current event's
volume change, the net value drops by `inventory × storage_monthly_fee ×
months_between prev cur`; a run with no previous date charges nothing
before its first event, and nothing is charged after the last event. -/
theorem storage_cost_between_events :
    (∀ (model : Date → ℚ) (p : Params) (e : Event) (rest : List Event)
        (inventory net_value : ℚ) (pd : Date),
        processEvents model p (e :: rest) inventory net_value (some pd)
          = processEvents model p (e :: rest) inventory
              (net_value - inventory * p.storage_monthly_fee * months_between pd e.date) none)
    ∧ (∀ (model : Date → ℚ) (p : Params) (inventory net_value : ℚ) (prev_date : Option Date),
        processEvents model p [] inventory net_value prev_date = Except.ok net_value)
    ∧ (∀ (injection_events withdrawal_events : List RawEvent) (model : Date → ℚ) (p : Params),
        price_contract injection_events withdrawal_events model p
          = processEvents model p (allEvents injection_events withdrawal_events) 0 0 none) := by
  refine ⟨?_, ?_, ?_⟩
  · intro model p e rest inventory net_value pd
    obtain ⟨d, v, t⟩ := e
    cases t <;> rfl
  · intro model p inventory net_value prev_date
    rfl
  · intro injection_events withdrawal_events model p
    rfl

/-- Claim C8: with both event lists empty, `price_contract` returns net
value 0 for every oracle and every parameter choice. -/
theorem price_contract_empty_lists :
    ∀ (model : Date → ℚ) (p : Params),
      price_contract [] [] model p = Except.ok 0 := by
  intro model p
  rfl

/-- Filtering one date class commutes with `orderedInsert` by date: the
inserted element lands in front of the elements sharing its date. -/
theorem filter_orderedInsert_date {α : Type} (key : α → Int) (d : Int) (a : α) :
    ∀ l : List α,
      (List.orderedInsert (keyLe key) a l).filter (fun e => decide (key e = d))
        = if key a = d
            then a :: l.filter (fun e => decide (key e = d))
            else l.filter (fun e => decide (key e = d))
  | [] => by
    by_cases ha : key a = d <;> simp [ha]
  | b :: l => by
    by_cases hab : keyLe key a b
    · by_cases ha : key a = d <;> by_cases hb : key b = d <;>
        simp [hab, ha, hb]
    · have hlt : key b < key a := not_le.mp hab
      have ih := filter_orderedInsert_date key d a l
      by_cases ha : key a = d
      · have hb : ¬ (key b = d) := by omega
        simp [hab, ha, hb, ih]
      · by_cases hb : key b = d <;> simp [hab, ha, hb, ih]

/-- Filtering one date class commutes with the date insertion sort: the
sort is stable, so each date class keeps its original relative order. -/
theorem filter_insertionSort_date {α : Type} (key : α → Int) (d : Int) :
    ∀ l : List α,
      (List.insertionSort (keyLe key) l).filter (fun e => decide (key e = d))
        = l.filter (fun e => decide (key e = d))
  | [] => rfl
  | a :: l => by
    have ih := filter_insertionSort_date key d l
    by_cases ha : key a = d <;>
      simp [List.insertionSort, filter_orderedInsert_date, ha, ih]

/-- Claim C5: the merged order is a stable date sort of sorted injections
followed by sorted withdrawals — the merged list is sorted by date, is a
permutation of the tagged inputs, and within each date class consists of
that date's injections, in input order, followed by that date's
withdrawals, in input order. -/
theorem merged_event_order (injection_events withdrawal_events : List RawEvent) :
    List.Sorted (keyLe Event.date) (allEvents injection_events withdrawal_events)
    ∧ List.Perm (allEvents injection_events withdrawal_events)
        (injection_events.map tagInjection ++ withdrawal_events.map tagWithdrawal)
    ∧ ∀ d : Date,
        (allEvents injection_events withdrawal_events).filter (fun e => decide (e.date = d))
          = ((injection_events.filter (fun r => decide (r.date = d))).map tagInjection)
            ++ ((withdrawal_events.filter (fun r => decide (r.date = d))).map tagWithdrawal) := by
  refine ⟨List.sorted_insertionSort _ _, allEvents_perm _ _, ?_⟩
  intro d
  show (List.insertionSort (keyLe Event.date) _).filter (fun e => decide (Event.date e = d)) = _
  rw [filter_insertionSort_date Event.date d, List.filter_append,
    List.filter_map tagInjection, List.filter_map tagWithdrawal]
  have h1 : ((fun e : Event => decide (e.date = d)) ∘ tagInjection)
      = (fun r : RawEvent => decide (r.date = d)) := rfl
  have h2 : ((fun e : Event => decide (e.date = d)) ∘ tagWithdrawal)
      = (fun r : RawEvent => decide (r.date = d)) := rfl
  rw [h1, h2, filter_insertionSort_date RawEvent.date d, filter_insertionSort_date RawEvent.date d]

/-- Claim C3: an injection event fails with `CapacityExceeded` exactly when
`inventory + volume > max_storage`: above capacity the run stops with that
error, at or below capacity the pass moves past the event (buying at the
oracle price, paying the injection fee, raising inventory), and an
injection landing exactly on `max_storage` succeeds. -/
theorem injection_capacity_check
    (model : Date → ℚ) (p : Params) (e : Event) (rest : List Event)
    (inventory net_value : ℚ) (prev_date : Option Date)
    (he : e.etype = EventType.injection) :
    (inventory + e.volume > p.max_storage →
        processEvents model p (e :: rest) inventory net_value prev_date
          = Except.error (PricingError.capacityExceeded e.volume p.max_storage))
    ∧ (inventory + e.volume ≤ p.max_storage →
        processEvents model p (e :: rest) inventory net_value prev_date
          = processEvents model p rest (inventory + e.volume)
              (chargeStorage p inventory net_value prev_date e.date
                - model e.date * e.volume - p.injection_fee * e.volume) (some e.date))
    ∧ (inventory + e.volume = p.max_storage →
        ∃ w, processEvents model p [e] inventory net_value prev_date = Except.ok w) := by
  obtain ⟨d, v, t⟩ := e
  cases t
  case withdrawal => exact EventType.noConfusion he
  case injection =>
    refine ⟨?_, ?_, ?_⟩
    · intro h
      simp only [processEvents]
      simp [h]
    · intro h
      have h2 : ¬ (inventory + v > p.max_storage) := not_lt.mpr h
      simp only [processEvents]
      simp [h2]
    · intro h
      have h2 : ¬ (inventory + v > p.max_storage) := by simp [h]
      exact ⟨chargeStorage p inventory net_value prev_date d
          - model d * v - p.injection_fee * v, by simp [processEvents, h2]⟩

/-- Witness for C3 at concrete inputs: a 5-unit injection into capacity 3
fails with `CapacityExceeded 5 3`, and a 3-unit injection filling capacity
3 exactly succeeds. -/
theorem injection_capacity_check_witness :
    (processEvents (fun _ => 2) ⟨0, 0, 0, 3⟩ [⟨0, 5, EventType.injection⟩] 0 0 none
        = Except.error (PricingError.capacityExceeded 5 3))
    ∧ (∃ w, processEvents (fun _ => 2) ⟨0, 0, 0, 3⟩ [⟨0, 3, EventType.injection⟩] 0 0 none
        = Except.ok w) :=
  ⟨(injection_capacity_check (fun _ => 2) ⟨0, 0, 0, 3⟩ ⟨0, 5, EventType.injection⟩ []
      0 0 none rfl).1 (by norm_num),
   (injection_capacity_check (fun _ => 2) ⟨0, 0, 0, 3⟩ ⟨0, 3, EventType.injection⟩ []
      0 0 none rfl).2.2 (by norm_num)⟩

/-- Claim C4: a withdrawal event fails with `InsufficientInventory` exactly
when `inventory < volume`: short inventory stops the run with that error,
sufficient inventory moves the pass past the event (selling at the oracle
price, paying the withdrawal fee, lowering inventory), and withdrawing
exactly the current inventory succeeds and leaves inventory 0. -/
theorem withdrawal_inventory_check
    (model : Date → ℚ) (p : Params) (e : Event) (rest : List Event)
    (inventory net_value : ℚ) (prev_date : Option Date)
    (he : e.etype = EventType.withdrawal) :
    (inventory < e.volume →
        processEvents model p (e :: rest) inventory net_value prev_date
          = Except.error (PricingError.insufficientInventory e.volume inventory))
    ∧ (e.volume ≤ inventory →
        processEvents model p (e :: rest) inventory net_value prev_date
          = processEvents model p rest (inventory - e.volume)
              (chargeStorage p inventory net_value prev_date e.date
                + model e.date * e.volume - p.withdrawal_fee * e.volume) (some e.date))
    ∧ (e.volume = inventory →
        processEvents model p [e] inventory net_value prev_date
            = Except.ok (chargeStorage p inventory net_value prev_date e.date
                + model e.date * e.volume - p.withdrawal_fee * e.volume)
          ∧ inventory - e.volume = 0) := by
  obtain ⟨d, v, t⟩ := e
  cases t
  case injection => exact EventType.noConfusion he
  case withdrawal =>
    refine ⟨?_, ?_, ?_⟩
    · intro h
      simp only [processEvents]
      simp [h]
    · intro h
      have h2 : ¬ (inventory < v) := not_lt.mpr h
      simp only [processEvents]
      simp [h2]
    · intro h
      have hv : v = inventory := h
      subst hv
      have h2 : ¬ (v < v) := lt_irrefl v
      exact ⟨by simp [processEvents, h2], by simp⟩

/-- Witness for C4 at concrete inputs: withdrawing 5 from inventory 2
fails with `InsufficientInventory 5 2`; withdrawing exactly 2 from
inventory 2 succeeds and leaves inventory 0. -/
theorem withdrawal_inventory_check_witness :
    (processEvents (fun _ => 2) ⟨0, 0, 0, 9⟩ [⟨0, 5, EventType.withdrawal⟩] 2 0 none
        = Except.error (PricingError.insufficientInventory 5 2))
    ∧ (processEvents (fun _ => 2) ⟨0, 0, 0, 9⟩ [⟨0, 2, EventType.withdrawal⟩] 2 0 none
          = Except.ok (chargeStorage ⟨0, 0, 0, 9⟩ 2 0 none 0
              + (fun _ => (2 : ℚ)) 0 * 2 - Params.withdrawal_fee ⟨0, 0, 0, 9⟩ * 2)
        ∧ (2 : ℚ) - 2 = 0) :=
  ⟨(withdrawal_inventory_check (fun _ => 2) ⟨0, 0, 0, 9⟩ ⟨0, 5, EventType.withdrawal⟩ []
      2 0 none rfl).1 (by norm_num),
   (withdrawal_inventory_check (fun _ => 2) ⟨0, 0, 0, 9⟩ ⟨0, 2, EventType.withdrawal⟩ []
      2 0 none rfl).2.2 (by norm_num)⟩

/-- Summing pointwise negations negates the sum. -/
theorem sum_map_negation {α : Type} (f : α → ℚ) :
    ∀ l : List α, (l.map (fun x => -(f x))).sum = -((l.map f).sum)
  | [] => by simp
  | a :: l => by
    simp [sum_map_negation f l]
    ring

/-- With all three fees zero, a successful pass returns the starting net
value plus the signed oracle cash flow of each event. -/
theorem processEvents_zero_fees (model : Date → ℚ) (p : Params)
    (hs : p.storage_monthly_fee = 0) (hi : p.injection_fee = 0) (hw : p.withdrawal_fee = 0) :
    ∀ (events : List Event) (inventory net_value : ℚ) (prev_date : Option Date) (v : ℚ),
      processEvents model p events inventory net_value prev_date = Except.ok v →
      v = net_value + (events.map (eventCashFlow model)).sum := by
  intro events
  induction events with
  | nil =>
    intro inventory net_value prev_date v hok
    simp only [processEvents, Except.ok.injEq] at hok
    simp [← hok]
  | cons e rest ih =>
    intro inventory net_value prev_date v hok
    obtain ⟨d, vol, t⟩ := e
    have hcs : chargeStorage p inventory net_value prev_date d = net_value := by
      cases prev_date <;> simp [chargeStorage, hs]
    cases t
    case injection =>
      by_cases hc : inventory + vol > p.max_storage
      · simp [processEvents, hc] at hok
      · simp only [processEvents, if_neg hc] at hok
        rw [ih _ _ _ v hok]
        simp [eventCashFlow, hi, hcs]
        ring
    case withdrawal =>
      by_cases hc : inventory < vol
      · simp [processEvents, hc] at hok
      · simp only [processEvents, if_neg hc] at hok
        rw [ih _ _ _ v hok]
        simp [eventCashFlow, hw, hcs]
        ring

/-- Claim C6: with zero storage, injection and withdrawal fees and total
injected volume equal to total withdrawn volume, a normally returning
`price_contract` yields exactly the withdrawal revenue minus the injection
cost at the oracle prices. -/
theorem zero_fee_net_value
    (injection_events withdrawal_events : List RawEvent)
    (model : Date → ℚ) (p : Params) (v : ℚ)
    (hs : p.storage_monthly_fee = 0) (hi : p.injection_fee = 0) (hw : p.withdrawal_fee = 0)
    (hbal : (injection_events.map RawEvent.volume).sum
      = (withdrawal_events.map RawEvent.volume).sum)
    (hok : price_contract injection_events withdrawal_events model p = Except.ok v) :
    v = (withdrawal_events.map (fun r => model r.date * r.volume)).sum
        - (injection_events.map (fun r => model r.date * r.volume)).sum := by
  have h := processEvents_zero_fees model p hs hi hw _ 0 0 none v hok
  rw [h, List.Perm.sum_eq ((allEvents_perm injection_events withdrawal_events).map
    (eventCashFlow model))]
  have h1 : (eventCashFlow model ∘ tagInjection)
      = (fun r : RawEvent => -(model r.date * r.volume)) := rfl
  have h2 : (eventCashFlow model ∘ tagWithdrawal)
      = (fun r : RawEvent => model r.date * r.volume) := rfl
  rw [List.map_append, List.sum_append, List.map_map, List.map_map, h1, h2,
    sum_map_negation (fun r : RawEvent => model r.date * r.volume) injection_events]
  ring

/-- Witness for C6: buy 2 units at price 3, sell 2 units at price 5, all
fees zero; the net value is 10 − 6 = 4. -/
theorem zero_fee_net_value_witness :
    (4 : ℚ) = (List.map (fun r : RawEvent => (fun d : Date => if d = 0 then (3 : ℚ) else 5) r.date
        * r.volume) [⟨30, 2⟩]).sum
      - (List.map (fun r : RawEvent => (fun d : Date => if d = 0 then (3 : ℚ) else 5) r.date
        * r.volume) [⟨0, 2⟩]).sum :=
  zero_fee_net_value [⟨0, 2⟩] [⟨30, 2⟩] (fun d => if d = 0 then 3 else 5) ⟨0, 0, 0, 10⟩ 4
    rfl rfl rfl (by norm_num)
    (by
      norm_num [price_contract, allEvents, processEvents, chargeStorage, keyLe, tagInjection,
        tagWithdrawal, months_between, List.insertionSort, List.orderedInsert])

/-- Claim C7: a precondition violation at an event stops the whole run at
that event — whatever events remain, the result is an `Except.error` (so
no partial net value is returned and the offending event is not skipped),
and the error distinguishes its kind and carries the violating volume
together with the capacity (for injections) or current inventory (for
withdrawals). -/
theorem error_terminates_valuation :
    ∀ (model : Date → ℚ) (p : Params) (e : Event) (rest : List Event)
      (inventory net_value : ℚ) (prev_date : Option Date),
      (e.etype = EventType.injection → inventory + e.volume > p.max_storage →
        processEvents model p (e :: rest) inventory net_value prev_date
          = Except.error (PricingError.capacityExceeded e.volume p.max_storage))
      ∧ (e.etype = EventType.withdrawal → inventory < e.volume →
        processEvents model p (e :: rest) inventory net_value prev_date
          = Except.error (PricingError.insufficientInventory e.volume inventory)) := by
  intro model p e rest inventory net_value prev_date
  obtain ⟨d, v, t⟩ := e
  constructor
  · intro he h
    cases t
    case withdrawal => exact EventType.noConfusion he
    case injection =>
      simp only [processEvents]
      simp [h]
  · intro he h
    cases t
    case injection => exact EventType.noConfusion he
    case withdrawal =>
      simp only [processEvents]
      simp [h]

/-- Witness for C7 at concrete inputs: both error kinds, each with a
non-empty tail of later events that is discarded. -/
theorem error_terminates_valuation_witness :
    (processEvents (fun _ => 2) ⟨0, 0, 0, 3⟩
        [⟨0, 5, EventType.injection⟩, ⟨1, 1, EventType.injection⟩] 0 0 none
      = Except.error (PricingError.capacityExceeded 5 3))
    ∧ (processEvents (fun _ => 2) ⟨0, 0, 0, 3⟩
        [⟨0, 5, EventType.withdrawal⟩, ⟨1, 1, EventType.injection⟩] 0 0 none
      = Except.error (PricingError.insufficientInventory 5 0)) :=
  ⟨(error_terminates_valuation (fun _ => 2) ⟨0, 0, 0, 3⟩ ⟨0, 5, EventType.injection⟩
      [⟨1, 1, EventType.injection⟩] 0 0 none).1 rfl (by norm_num),
   (error_terminates_valuation (fun _ => 2) ⟨0, 0, 0, 3⟩ ⟨0, 5, EventType.withdrawal⟩
      [⟨1, 1, EventType.injection⟩] 0 0 none).2 rfl (by norm_num)⟩

/-- The pass queries the oracle only at the dates of its events. -/
theorem processEvents_congr_oracle (model1 model2 : Date → ℚ) (p : Params) :
    ∀ (events : List Event), (∀ e ∈ events, model1 e.date = model2 e.date) →
      ∀ (inventory net_value : ℚ) (prev_date : Option Date),
        processEvents model1 p events inventory net_value prev_date
          = processEvents model2 p events inventory net_value prev_date := by
  intro events
  induction events with
  | nil =>
    intro _ inventory net_value prev_date
    rfl
  | cons e rest ih =>
    intro hag inventory net_value prev_date
    obtain ⟨d, vol, t⟩ := e
    have hd : model1 d = model2 d := hag _ (List.mem_cons_self _ _)
    have hrest : ∀ e2 ∈ rest, model1 e2.date = model2 e2.date :=
      fun e2 he2 => hag e2 (List.mem_cons_of_mem _ he2)
    cases t
    case injection =>
      by_cases hc : inventory + vol > p.max_storage
      · simp [processEvents, hc]
      · simp only [processEvents, if_neg hc]
        rw [hd, ih hrest]
    case withdrawal =>
      by_cases hc : inventory < vol
      · simp [processEvents, hc]
      · simp only [processEvents, if_neg hc]
        rw [hd, ih hrest]

/-- Claim C9: `price_contract` is a pure function of its inputs and of the
prices the oracle returns — two calls with identical event lists,
identical parameters and oracles agreeing on every event date produce
identical results, success or failure alike. -/
theorem price_contract_deterministic
    (injection_events withdrawal_events : List RawEvent)
    (model1 model2 : Date → ℚ) (p : Params)
    (hag : ∀ r ∈ injection_events ++ withdrawal_events, model1 r.date = model2 r.date) :
    price_contract injection_events withdrawal_events model1 p
      = price_contract injection_events withdrawal_events model2 p := by
  refine processEvents_congr_oracle model1 model2 p _ ?_ 0 0 none
  intro e he
  rcases mem_allEvents he with ⟨r, hr, rfl⟩ | ⟨r, hr, rfl⟩
  · exact hag r (List.mem_append_left _ hr)
  · exact hag r (List.mem_append_right _ hr)

/-- Witness for C9: two syntactically different oracles that agree on the
only event date give the same valuation. -/
theorem price_contract_deterministic_witness :
    price_contract [⟨3, 1⟩] [] (fun d => (d : ℚ)) ⟨0, 0, 0, 10⟩
      = price_contract [⟨3, 1⟩] [] (fun _ => 3) ⟨0, 0, 0, 10⟩ :=
  price_contract_deterministic [⟨3, 1⟩] [] (fun d => (d : ℚ)) (fun _ => 3) ⟨0, 0, 0, 10⟩
    (by
      intro r hr
      simp only [List.append_nil, List.mem_cons, List.not_mem_nil, or_false] at hr
      subst hr
      norm_num)

/-- The instrumented pass computes the same result as the plain one. -/
theorem processEventsTraced_fst (model : Date → ℚ) (p : Params) :
    ∀ (events : List Event) (inventory net_value : ℚ) (prev_date : Option Date),
      (processEventsTraced model p events inventory net_value prev_date).1
        = processEvents model p events inventory net_value prev_date := by
  intro events
  induction events with
  | nil =>
    intro inventory net_value prev_date
    rfl
  | cons e rest ih =>
    intro inventory net_value prev_date
    obtain ⟨d, vol, t⟩ := e
    cases t
    case injection =>
      by_cases hc : inventory + vol > p.max_storage
      · simp [processEvents, processEventsTraced, hc]
      · simp only [processEvents, processEventsTraced, if_neg hc]
        exact ih _ _ _
    case withdrawal =>
      by_cases hc : inventory < vol
      · simp [processEvents, processEventsTraced, hc]
      · simp only [processEvents, processEventsTraced, if_neg hc]
        exact ih _ _ _

/-- On a failing run the oracle trace covers exactly a strict prefix of
the events: the dates of the events before the failing one. -/
theorem processEventsTraced_error_calls (model : Date → ℚ) (p : Params) :
    ∀ (events : List Event) (inventory net_value : ℚ) (prev_date : Option Date)
      (err : PricingError),
      processEvents model p events inventory net_value prev_date = Except.error err →
      ∃ k, k < events.length ∧
        (processEventsTraced model p events inventory net_value prev_date).2
          = (events.take k).map Event.date := by
  intro events
  induction events with
  | nil =>
    intro inventory net_value prev_date err herr
    simp [processEvents] at herr
  | cons e rest ih =>
    intro inventory net_value prev_date err herr
    obtain ⟨d, vol, t⟩ := e
    cases t
    case injection =>
      by_cases hc : inventory + vol > p.max_storage
      · refine ⟨0, Nat.succ_pos _, ?_⟩
        simp [processEventsTraced, hc]
      · simp only [processEvents, if_neg hc] at herr
        obtain ⟨k, hk, htr⟩ := ih _ _ _ err herr
        refine ⟨k + 1, Nat.succ_lt_succ hk, ?_⟩
        simp only [processEventsTraced, if_neg hc, List.take_succ_cons, List.map_cons]
        exact congrArg _ htr
    case withdrawal =>
      by_cases hc : inventory < vol
      · refine ⟨0, Nat.succ_pos _, ?_⟩
        simp [processEventsTraced, hc]
      · simp only [processEvents, if_neg hc] at herr
        obtain ⟨k, hk, htr⟩ := ih _ _ _ err herr
        refine ⟨k + 1, Nat.succ_lt_succ hk, ?_⟩
        simp only [processEventsTraced, if_neg hc, List.take_succ_cons, List.map_cons]
        exact congrArg _ htr

/-- Claim C10: the capacity and inventory checks precede the price lookup.
The instrumented pass agrees with the real one; a failing event queries
the oracle neither for itself nor for anything later; a passing event
queries it exactly once and moves on; and a failing run's query list is
the dates of the events strictly before the failing event. -/
theorem oracle_not_queried_on_failure :
    (∀ (model : Date → ℚ) (p : Params) (events : List Event) (inventory net_value : ℚ)
        (prev_date : Option Date),
      (processEventsTraced model p events inventory net_value prev_date).1
        = processEvents model p events inventory net_value prev_date)
    ∧ (∀ (model : Date → ℚ) (p : Params) (e : Event) (rest : List Event)
        (inventory net_value : ℚ) (prev_date : Option Date),
        (e.etype = EventType.injection → inventory + e.volume > p.max_storage →
          processEventsTraced model p (e :: rest) inventory net_value prev_date
            = (Except.error (PricingError.capacityExceeded e.volume p.max_storage), []))
        ∧ (e.etype = EventType.withdrawal → inventory < e.volume →
          processEventsTraced model p (e :: rest) inventory net_value prev_date
            = (Except.error (PricingError.insufficientInventory e.volume inventory), []))
        ∧ (e.etype = EventType.injection → inventory + e.volume ≤ p.max_storage →
          (processEventsTraced model p (e :: rest) inventory net_value prev_date).2
            = e.date :: (processEventsTraced model p rest (inventory + e.volume)
                (chargeStorage p inventory net_value prev_date e.date
                  - model e.date * e.volume - p.injection_fee * e.volume) (some e.date)).2)
        ∧ (e.etype = EventType.withdrawal → e.volume ≤ inventory →
          (processEventsTraced model p (e :: rest) inventory net_value prev_date).2
            = e.date :: (processEventsTraced model p rest (inventory - e.volume)
                (chargeStorage p inventory net_value prev_date e.date
                  + model e.date * e.volume - p.withdrawal_fee * e.volume) (some e.date)).2))
    ∧ (∀ (model : Date → ℚ) (p : Params) (events : List Event) (inventory net_value : ℚ)
        (prev_date : Option Date) (err : PricingError),
        processEvents model p events inventory net_value prev_date = Except.error err →
        ∃ k, k < events.length ∧
          (processEventsTraced model p events inventory net_value prev_date).2
            = (events.take k).map Event.date) := by
  refine ⟨processEventsTraced_fst, ?_, processEventsTraced_error_calls⟩
  intro model p e rest inventory net_value prev_date
  obtain ⟨d, vol, t⟩ := e
  refine ⟨?_, ?_, ?_, ?_⟩
  · intro he hc
    cases t
    case withdrawal => exact EventType.noConfusion he
    case injection => simp [processEventsTraced, hc]
  · intro he hc
    cases t
    case injection => exact EventType.noConfusion he
    case withdrawal => simp [processEventsTraced, hc]
  · intro he hc
    cases t
    case withdrawal => exact EventType.noConfusion he
    case injection =>
      have h2 : ¬ (inventory + vol > p.max_storage) := not_lt.mpr hc
      simp [processEventsTraced, h2]
  · intro he hc
    cases t
    case injection => exact EventType.noConfusion he
    case withdrawal =>
      have h2 : ¬ (inventory < vol) := not_lt.mpr hc
      simp [processEventsTraced, h2]

/-- Witness for C10: a failing injection produces an empty query list, and
a run that fails at its second event has queried only the first event's
date. -/
theorem oracle_not_queried_on_failure_witness :
    (processEventsTraced (fun _ => 2) ⟨0, 0, 0, 3⟩
        [⟨0, 5, EventType.injection⟩, ⟨1, 1, EventType.injection⟩] 0 0 none
      = (Except.error (PricingError.capacityExceeded 5 3), []))
    ∧ ∃ k, k < ([⟨0, 1, EventType.injection⟩, ⟨1, 5, EventType.withdrawal⟩] : List Event).length
        ∧ (processEventsTraced (fun _ => 2) ⟨0, 0, 0, 3⟩
            [⟨0, 1, EventType.injection⟩, ⟨1, 5, EventType.withdrawal⟩] 0 0 none).2
          = (([⟨0, 1, EventType.injection⟩, ⟨1, 5, EventType.withdrawal⟩]
              : List Event).take k).map Event.date :=
  ⟨(oracle_not_queried_on_failure.2.1 (fun _ => 2) ⟨0, 0, 0, 3⟩ ⟨0, 5, EventType.injection⟩
      [⟨1, 1, EventType.injection⟩] 0 0 none).1 rfl (by norm_num),
   oracle_not_queried_on_failure.2.2 (fun _ => 2) ⟨0, 0, 0, 3⟩
      [⟨0, 1, EventType.injection⟩, ⟨1, 5, EventType.withdrawal⟩] 0 0 none
      (PricingError.insufficientInventory 5 1)
      (by norm_num [processEvents, chargeStorage, months_between])⟩

end GasValuator
